import Mathlib

/-!
Verification of the freehand pattern-matching engine of the dashboard
repository (component `PatternRecognition`): curve normalization,
arc-length resampling (`resampleCurve`), DTW scoring
(`calculateDTWSimilarity`), the minimum-support corpus filter, and the
ranked search (`searchForMatchingPatterns`).  Coordinates are modelled
as real numbers; the `Infinity` border of the DTW table is modelled with
`EReal`.
-/

/-- A 2D point, as produced by the drawing canvas or the series mapping. -/
structure Point where
  x : ℝ
  y : ℝ

/-- Euclidean length of the segment from `p` to `q`:
`Math.sqrt(dx*dx + dy*dy)` in the source. -/
noncomputable def segLen (p q : Point) : ℝ :=
  Real.sqrt ((q.x - p.x) * (q.x - p.x) + (q.y - p.y) * (q.y - p.y))

/-- Total path length of a polyline: the sum of the Euclidean distances
between consecutive points (the `pathLength` accumulation loop of
`resampleCurve`). -/
noncomputable def pathLen : List Point → ℝ
  | [] => 0
  | [_] => 0
  | p :: q :: rest => segLen p q + pathLen (q :: rest)

/-- Model of the JavaScript `(d || 1)` guard applied to a range
difference: a zero denominator is replaced by `1`. -/
noncomputable def guard0 (d : ℝ) : ℝ :=
  if d = 0 then 1 else d

/-- `Math.min(...values)` over a non-empty list (`0` for the empty list,
which the source never produces). -/
noncomputable def listMin : List ℝ → ℝ
  | [] => 0
  | a :: l => l.foldl min a

/-- `Math.max(...values)` over a non-empty list. -/
noncomputable def listMax : List ℝ → ℝ
  | [] => 0
  | a :: l => l.foldl max a

/-- Result of one run of the inner `while` loop of `resampleCurve`:
the point pushed (if any) together with the loop variables
`prevPoint`, the remaining suffix of `points` (from `pointIndex` on)
and `currentDistance` as they stand when the loop exits. -/
structure WalkOut where
  pushed : Option Point
  prev : Point
  rest : List Point
  cur : ℝ

/-- The inner `while` loop of `resampleCurve`: walk the polyline until
the accumulated distance reaches `target`, then linearly interpolate the
sample on the bracketing segment.  Mirrors
`while (currentDistance < targetDistance && pointIndex < points.length)`. -/
noncomputable def walk (target : ℝ) (prev : Point) (rest : List Point) (cur : ℝ) :
    WalkOut :=
  if cur < target then
    match rest with
    | [] => ⟨none, prev, [], cur⟩
    | next :: rest' =>
      if target ≤ cur + segLen prev next then
        ⟨some ⟨prev.x + ((target - cur) / segLen prev next) * (next.x - prev.x),
            prev.y + ((target - cur) / segLen prev next) * (next.y - prev.y)⟩,
          prev, next :: rest', cur⟩
      else
        walk target next rest' (cur + segLen prev next)
  else ⟨none, prev, rest, cur⟩

/-- The outer `for (let i = 1; i < n - 1; i++)` loop of `resampleCurve`:
`k` iterations remain, `i` is the current loop index, and the walk state
persists across iterations exactly as the mutable variables do in the
source. -/
noncomputable def resampleLoop (step : ℝ) :
    ℕ → ℕ → Point → List Point → ℝ → List Point
  | 0, _, _, _, _ => []
  | k + 1, i, prev, rest, cur =>
    let w := walk ((i : ℝ) * step) prev rest cur
    match w.pushed with
    | some p => p :: resampleLoop step k (i + 1) w.prev w.rest w.cur
    | none => resampleLoop step k (i + 1) w.prev w.rest w.cur

/-- `resampleCurve(points, n)` from the source: returns the input
unchanged when it has at most one point, otherwise pushes the first
input point, the interior arc-length samples, and the last input
point. -/
noncomputable def resampleCurve (points : List Point) (n : ℕ) : List Point :=
  match points with
  | [] => []
  | [p] => [p]
  | p0 :: p1 :: rest =>
    let pathLength := pathLen (p0 :: p1 :: rest)
    let stepSize := pathLength / ((n : ℝ) - 1)
    (p0 :: resampleLoop stepSize (n - 2) 1 p0 (p1 :: rest) 0) ++
      [(p0 :: p1 :: rest).getLast (List.cons_ne_nil _ _)]

/-- Normalization of the drawn stroke (screen space) from
`searchForMatchingPatterns`: each coordinate is rescaled by the guarded
range, and the y axis is inverted (`1 - ratio`) because canvas y grows
downward. -/
noncomputable def normalizeStroke (pts : List Point) : List Point :=
  let minX := listMin (pts.map Point.x)
  let maxX := listMax (pts.map Point.x)
  let minY := listMin (pts.map Point.y)
  let maxY := listMax (pts.map Point.y)
  pts.map fun p =>
    ⟨(p.x - minX) / guard0 (maxX - minX),
      1 - (p.y - minY) / guard0 (maxY - minY)⟩

/-- Index-carrying map used by the series normalization:
`series.data.map((d, i) => ({x: i/(len-1), y: (d.sales-minVal)/(range||1)}))`.
`k` is the fixed series length, `i` the running index. -/
noncomputable def normalizeSeriesAux (minVal maxVal : ℝ) (k : ℕ) :
    ℕ → List ℝ → List Point
  | _, [] => []
  | i, s :: rest =>
    ⟨(i : ℝ) / ((k : ℝ) - 1), (s - minVal) / guard0 (maxVal - minVal)⟩ ::
      normalizeSeriesAux minVal maxVal k (i + 1) rest

/-- Normalization of a time series (value mode, no y inversion) from
`searchForMatchingPatterns`. -/
noncomputable def normalizeSeries (sales : List ℝ) : List Point :=
  normalizeSeriesAux (listMin sales) (listMax sales) sales.length 0 sales

/-- Per-cell local cost of the DTW table:
`Math.sqrt(Math.pow(a[i-1].y - b[j-1].y, 2))`, indexed here 0-based. -/
noncomputable def dtwCost (a b : List Point) (i j : ℕ) : EReal :=
  ((Real.sqrt (((a.getD i ⟨0, 0⟩).y - (b.getD j ⟨0, 0⟩).y) ^ 2) : ℝ) : EReal)

/-- Cell `(i, j)` of the DTW cumulative-cost table: `dtw[0][0] = 0`,
every other border cell is `Infinity`, and interior cells follow the
recurrence `cost + min(dtw[i-1][j], dtw[i][j-1], dtw[i-1][j-1])`.  The
fill order of the source makes the table exactly the memoization of
this recursion. -/
noncomputable def dtwCell (a b : List Point) : ℕ → ℕ → EReal
  | 0, 0 => 0
  | 0, _ + 1 => ⊤
  | _ + 1, 0 => ⊤
  | i + 1, j + 1 =>
    dtwCost a b i j +
      min (dtwCell a b i (j + 1)) (min (dtwCell a b (i + 1) j) (dtwCell a b i j))
termination_by i j => (i, j)

/-- `calculateDTWSimilarity(a, b)` from the source: the bottom-right
cell `dtw[n][m]` of the cumulative-cost table. -/
noncomputable def calculateDTWSimilarity (a b : List Point) : EReal :=
  dtwCell a b a.length b.length

/-- The displayed match quality `Math.max(0, 100 - similarity * 20)`
(before the `toFixed(0)` formatting). -/
noncomputable def matchQuality (d : ℝ) : ℝ :=
  max 0 (100 - d * 20)

/-- Modelled from the spec: `clamp(0, 100, v)` as the spec words the
match-quality transform (the source itself only applies the lower
bound). -/
noncomputable def specClamp (lo hi v : ℝ) : ℝ :=
  min hi (max lo v)

/-- A prepared time series of the corpus: entity key, category label,
chronological monthly sales values, and the total-sales aggregate. -/
structure Series where
  product : String
  category : String
  sales : List ℝ
  totalSales : ℝ

/-- The corpus filter at the end of the `timeSeriesData` memo: a series
is kept when the number of periods with strictly positive sales is at
least `Math.min(5, allMonths.length / 2)` (the half is not rounded). -/
noncomputable def timeSeriesData (result : List Series) (periodCount : ℕ) :
    List Series :=
  result.filter fun s =>
    decide (min 5 ((periodCount : ℝ) / 2) ≤
      ((s.sales.filter fun v => decide (0 < v)).length : ℝ))

/-- Modelled from the spec: the minimum-support criterion as the spec
words it — the count of periods with a NON-ZERO value is at least
`min(5, periodCount / 2)`. -/
noncomputable def specMinimumSupport (s : Series) (periodCount : ℕ) : Prop :=
  min 5 ((periodCount : ℝ) / 2) ≤
    ((s.sales.filter fun v => decide (v ≠ 0)).length : ℝ)

/-- One scored search result: the series together with the DTW distance
(`similarity`) and the normalized series kept for display. -/
structure MatchResult where
  series : Series
  similarity : EReal
  normalizedData : List Point

/-- The category filter of `searchForMatchingPatterns`: keep everything
when the selected category is `All`, otherwise exact match. -/
def categoryKeep (selectedCategory : String) (s : Series) : Bool :=
  if selectedCategory ≠ "All" then s.category == selectedCategory else true

/-- Scoring of one series against the resampled stroke, as in the map
body of `searchForMatchingPatterns`. -/
noncomputable def scoreSeries (sampledDrawing : List Point) (s : Series) :
    MatchResult :=
  let normalizedSeries := normalizeSeries s.sales
  let sampledSeries := resampleCurve normalizedSeries 20
  ⟨s, calculateDTWSimilarity sampledDrawing sampledSeries, normalizedSeries⟩

/-- The unranked result list of `searchForMatchingPatterns`: category
filter, then normalization, resampling and DTW scoring of every series,
in corpus order. -/
noncomputable def scoredResults (drawingPoints : List Point)
    (corpus : List Series) (selectedCategory : String) : List MatchResult :=
  let normalizedDrawing := normalizeStroke drawingPoints
  let sampledDrawing := resampleCurve normalizedDrawing 20
  (corpus.filter (categoryKeep selectedCategory)).map (scoreSeries sampledDrawing)

/-- Ordered insertion for the stable sort: the new element goes before
the first element with a key not smaller than its own. -/
noncomputable def insertSorted (key : MatchResult → EReal) (a : MatchResult) :
    List MatchResult → List MatchResult
  | [] => [a]
  | b :: l => if key a ≤ key b then a :: b :: l else b :: insertSorted key a l

/-- Model of the ECMAScript stable `Array.prototype.sort` with the
comparator `(a, b) => a.similarity - b.similarity`: a stable insertion
sort by the key. -/
noncomputable def stableSortBy (key : MatchResult → EReal) :
    List MatchResult → List MatchResult
  | [] => []
  | a :: l => insertSorted key a (stableSortBy key l)

/-- `searchForMatchingPatterns` from the source: empty stroke or empty
corpus produce no results; otherwise the scored list is sorted
ascending by similarity and truncated to the top 10. -/
noncomputable def searchForMatchingPatterns (drawingPoints : List Point)
    (corpus : List Series) (selectedCategory : String) : List MatchResult :=
  if drawingPoints.length = 0 ∨ corpus.length = 0 then []
  else
    (stableSortBy (fun m => m.similarity)
        (scoredResults drawingPoints corpus selectedCategory)).take 10

/-- `endDrawing` from the source: the search runs only when the stroke
has at least 5 points; otherwise no matches are produced. -/
noncomputable def endDrawing (drawingPoints : List Point)
    (corpus : List Series) (selectedCategory : String) : List MatchResult :=
  if 5 ≤ drawingPoints.length then
    searchForMatchingPatterns drawingPoints corpus selectedCategory
  else []

/-! ### Helper lemmas: minima, maxima, guarded ranges -/

lemma foldl_min_le_init (l : List ℝ) (a : ℝ) : l.foldl min a ≤ a := by
  induction l generalizing a with
  | nil => exact le_refl a
  | cons b t ih =>
    calc (b :: t).foldl min a = t.foldl min (min a b) := rfl
    _ ≤ min a b := ih _
    _ ≤ a := min_le_left _ _

lemma foldl_min_le_mem (l : List ℝ) (a : ℝ) {x : ℝ} (hx : x ∈ l) :
    l.foldl min a ≤ x := by
  induction l generalizing a with
  | nil => cases hx
  | cons b t ih =>
    rcases List.mem_cons.1 hx with rfl | hx'
    · calc (x :: t).foldl min a = t.foldl min (min a x) := rfl
      _ ≤ min a x := foldl_min_le_init _ _
      _ ≤ x := min_le_right _ _
    · exact ih _ hx'

lemma init_le_foldl_max (l : List ℝ) (a : ℝ) : a ≤ l.foldl max a := by
  induction l generalizing a with
  | nil => exact le_refl a
  | cons b t ih =>
    calc a ≤ max a b := le_max_left _ _
    _ ≤ t.foldl max (max a b) := ih _
    _ = (b :: t).foldl max a := rfl

lemma mem_le_foldl_max (l : List ℝ) (a : ℝ) {x : ℝ} (hx : x ∈ l) :
    x ≤ l.foldl max a := by
  induction l generalizing a with
  | nil => cases hx
  | cons b t ih =>
    rcases List.mem_cons.1 hx with rfl | hx'
    · calc x ≤ max a x := le_max_right _ _
      _ ≤ t.foldl max (max a x) := init_le_foldl_max _ _
      _ = (x :: t).foldl max a := rfl
    · exact ih _ hx'

lemma listMin_le_mem {l : List ℝ} {x : ℝ} (hx : x ∈ l) : listMin l ≤ x := by
  cases l with
  | nil => cases hx
  | cons a t =>
    rcases List.mem_cons.1 hx with rfl | hx'
    · exact foldl_min_le_init t x
    · exact foldl_min_le_mem t a hx'

lemma mem_le_listMax {l : List ℝ} {x : ℝ} (hx : x ∈ l) : x ≤ listMax l := by
  cases l with
  | nil => cases hx
  | cons a t =>
    rcases List.mem_cons.1 hx with rfl | hx'
    · exact init_le_foldl_max t x
    · exact mem_le_foldl_max t a hx'

lemma foldl_min_const (l : List ℝ) (c : ℝ) (h : ∀ x ∈ l, x = c) :
    l.foldl min c = c := by
  induction l with
  | nil => rfl
  | cons b t ih =>
    have hb : b = c := h b (List.mem_cons_self _ _)
    subst hb
    have : min b b = b := min_self b
    calc (b :: t).foldl min b = t.foldl min (min b b) := rfl
    _ = t.foldl min b := by rw [this]
    _ = b := ih fun x hx => h x (List.mem_cons_of_mem _ hx)

lemma foldl_max_const (l : List ℝ) (c : ℝ) (h : ∀ x ∈ l, x = c) :
    l.foldl max c = c := by
  induction l with
  | nil => rfl
  | cons b t ih =>
    have hb : b = c := h b (List.mem_cons_self _ _)
    subst hb
    have : max b b = b := max_self b
    calc (b :: t).foldl max b = t.foldl max (max b b) := rfl
    _ = t.foldl max b := by rw [this]
    _ = b := ih fun x hx => h x (List.mem_cons_of_mem _ hx)

lemma listMin_const {l : List ℝ} {c : ℝ} (hne : l ≠ []) (h : ∀ x ∈ l, x = c) :
    listMin l = c := by
  cases l with
  | nil => exact absurd rfl hne
  | cons a t =>
    have ha : a = c := h a (List.mem_cons_self _ _)
    subst ha
    exact foldl_min_const t a fun x hx => h x (List.mem_cons_of_mem _ hx)

lemma listMax_const {l : List ℝ} {c : ℝ} (hne : l ≠ []) (h : ∀ x ∈ l, x = c) :
    listMax l = c := by
  cases l with
  | nil => exact absurd rfl hne
  | cons a t =>
    have ha : a = c := h a (List.mem_cons_self _ _)
    subst ha
    exact foldl_max_const t a fun x hx => h x (List.mem_cons_of_mem _ hx)

lemma guard0_pos {d : ℝ} (hd : 0 ≤ d) : 0 < guard0 d := by
  unfold guard0
  split
  · exact one_pos
  · exact lt_of_le_of_ne hd (Ne.symm (by assumption))

lemma guard0_zero : guard0 0 = 1 := by simp [guard0]

/-! ### Helper lemmas: segment and path lengths -/

lemma segLen_nonneg (p q : Point) : 0 ≤ segLen p q := Real.sqrt_nonneg _

lemma segLen_self (p : Point) : segLen p p = 0 := by
  simp [segLen]

lemma pathLen_nonneg (l : List Point) : 0 ≤ pathLen l := by
  induction l with
  | nil => exact le_refl 0
  | cons p t ih =>
    cases t with
    | nil => exact le_refl 0
    | cons q r =>
      have : pathLen (p :: q :: r) = segLen p q + pathLen (q :: r) := rfl
      rw [this]
      exact add_nonneg (segLen_nonneg _ _) ih

lemma pathLen_replicate (m : ℕ) (p : Point) :
    pathLen (List.replicate m p) = 0 := by
  induction m with
  | zero => rfl
  | succ k ih =>
    cases k with
    | zero => rfl
    | succ k' =>
      have hrep : List.replicate (k' + 2) p = p :: p :: List.replicate k' p := by
        simp [List.replicate_succ]
      have hrep' : List.replicate (k' + 1) p = p :: List.replicate k' p := by
        simp [List.replicate_succ]
      rw [hrep]
      have : pathLen (p :: p :: List.replicate k' p) =
          segLen p p + pathLen (p :: List.replicate k' p) := rfl
      rw [this, segLen_self, ← hrep', ih, add_zero]

/-! ### Helper lemmas: the resampling walk -/

lemma pathLen_cons_cons (p q : Point) (r : List Point) :
    pathLen (p :: q :: r) = segLen p q + pathLen (q :: r) := rfl

lemma walk_of_not_lt {target cur : ℝ} (prev : Point) (rest : List Point)
    (h : ¬ cur < target) : walk target prev rest cur = ⟨none, prev, rest, cur⟩ := by
  rw [walk.eq_def]
  simp [h]

/-- When the target lies strictly ahead of the accumulated distance and
within the remaining path, the inner while loop pushes exactly one
sample and leaves a state whose accumulated distance is still below the
target and which conserves total path length. -/
lemma walk_push {target : ℝ} :
    ∀ (rest : List Point) (prev : Point) (cur : ℝ),
      cur < target → target ≤ cur + pathLen (prev :: rest) →
      ∃ p pr rs cu, walk target prev rest cur = ⟨some p, pr, rs, cu⟩ ∧
        cu < target ∧ cu + pathLen (pr :: rs) = cur + pathLen (prev :: rest) := by
  intro rest
  induction rest with
  | nil =>
    intro prev cur h1 h2
    exfalso
    have h0 : pathLen [prev] = 0 := rfl
    rw [h0, add_zero] at h2
    exact absurd h1 (not_lt.2 h2)
  | cons next rs' ih =>
    intro prev cur h1 h2
    rw [walk.eq_def]
    simp only [if_pos h1]
    by_cases hc : target ≤ cur + segLen prev next
    · refine ⟨⟨prev.x + ((target - cur) / segLen prev next) * (next.x - prev.x),
          prev.y + ((target - cur) / segLen prev next) * (next.y - prev.y)⟩,
        prev, next :: rs', cur, ?_, h1, rfl⟩
      simp [hc]
    · simp only [if_neg hc]
      have h2' : target ≤ (cur + segLen prev next) + pathLen (next :: rs') := by
        rw [pathLen_cons_cons] at h2
        linarith
      obtain ⟨p, pr, rs, cu, heq, hlt, hcons⟩ :=
        ih next (cur + segLen prev next) (not_le.1 hc) h2'
      refine ⟨p, pr, rs, cu, heq, hlt, ?_⟩
      rw [hcons, pathLen_cons_cons]
      ring

lemma resampleLoop_zero_step (k : ℕ) :
    ∀ (i : ℕ) (prev : Point) (rest : List Point),
      resampleLoop 0 k i prev rest 0 = [] := by
  induction k with
  | zero => intro i prev rest; rfl
  | succ k' ih =>
    intro i prev rest
    have hw : walk ((i : ℝ) * 0) prev rest 0 = ⟨none, prev, rest, 0⟩ :=
      walk_of_not_lt _ _ (by simp)
    simp only [resampleLoop, hw]
    exact ih (i + 1) prev rest

/-- Under a positive step size, with the accumulated distance strictly
below the current target and every remaining target within the total
path length, each of the `k` remaining iterations of the outer loop
pushes exactly one sample. -/
lemma resampleLoop_length {step L : ℝ} (hstep : 0 < step) :
    ∀ (k i : ℕ) (prev : Point) (rest : List Point) (cur : ℝ),
      cur < (i : ℝ) * step →
      cur + pathLen (prev :: rest) = L →
      (∀ j : ℕ, j < i + k → (j : ℝ) * step ≤ L) →
      (resampleLoop step k i prev rest cur).length = k := by
  intro k
  induction k with
  | zero => intro i prev rest cur _ _ _; rfl
  | succ k' ih =>
    intro i prev rest cur hcur hcons htar
    have htarget : (i : ℝ) * step ≤ cur + pathLen (prev :: rest) := by
      rw [hcons]
      exact htar i (by omega)
    obtain ⟨p, pr, rs, cu, heq, hlt, hc⟩ := walk_push rest prev cur hcur htarget
    simp only [resampleLoop, heq]
    have hcur' : cu < ((i + 1 : ℕ) : ℝ) * step := by
      have hstep' : (i : ℝ) * step < ((i : ℝ) + 1) * step := by nlinarith
      push_cast
      exact lt_trans hlt hstep'
    have hcons' : cu + pathLen (pr :: rs) = L := by rw [hc]; exact hcons
    have htar' : ∀ j : ℕ, j < (i + 1) + k' → (j : ℝ) * step ≤ L := by
      intro j hj
      exact htar j (by omega)
    simp [ih (i + 1) pr rs cu hcur' hcons' htar']

/-- On a curve with at least two points and zero total path length,
every step target is `0`, the inner loop never pushes, and the result
is just the two endpoint pushes. -/
lemma resampleCurve_const (m n : ℕ) (p : Point) (hm : 2 ≤ m) (_ : 2 ≤ n) :
    resampleCurve (List.replicate m p) n = [p, p] := by
  obtain ⟨m', rfl⟩ : ∃ m', m = m' + 2 := ⟨m - 2, by omega⟩
  have hrep : List.replicate (m' + 2) p = p :: p :: List.replicate m' p := by
    simp [List.replicate_succ]
  have hL : pathLen (p :: p :: List.replicate m' p) = 0 := by
    rw [← hrep]
    exact pathLen_replicate _ _
  have hlast : (p :: p :: List.replicate m' p).getLast (List.cons_ne_nil _ _) = p := by
    have hmem := List.getLast_mem (l := p :: p :: List.replicate m' p)
      (List.cons_ne_nil _ _)
    rcases List.mem_cons.1 hmem with h | h
    · exact h
    rcases List.mem_cons.1 h with h' | h'
    · exact h'
    · exact List.eq_of_mem_replicate h'
  rw [hrep]
  simp only [resampleCurve, hL, zero_div, resampleLoop_zero_step, hlast]
  rfl

/-- Length and endpoints of `resampleCurve` on a curve with at least two
points, positive total path length, and `n ≥ 2`. -/
lemma resampleCurve_spec_pos (p0 p1 : Point) (rest : List Point) (n : ℕ)
    (hn : 2 ≤ n) (hL : 0 < pathLen (p0 :: p1 :: rest)) :
    (resampleCurve (p0 :: p1 :: rest) n).length = n ∧
      (resampleCurve (p0 :: p1 :: rest) n).head? = some p0 ∧
      (resampleCurve (p0 :: p1 :: rest) n).getLast? =
        some ((p0 :: p1 :: rest).getLast (List.cons_ne_nil _ _)) := by
  have hn1 : (0 : ℝ) < (n : ℝ) - 1 := by
    have : (2 : ℝ) ≤ (n : ℝ) := by exact_mod_cast hn
    linarith
  set L := pathLen (p0 :: p1 :: rest) with hLdef
  set step := L / ((n : ℝ) - 1) with hstepdef
  have hstep : 0 < step := div_pos hL hn1
  have hmid : (resampleLoop step (n - 2) 1 p0 (p1 :: rest) 0).length = n - 2 := by
    refine resampleLoop_length (L := L) hstep (n - 2) 1 p0 (p1 :: rest) 0 ?_ ?_ ?_
    · simpa using hstep
    · rw [zero_add]
    · intro j hj
      have hj' : (j : ℝ) ≤ (n : ℝ) - 1 := by
        have : j + 1 ≤ n - 1 := by omega
        have hcast : ((j : ℕ) : ℝ) + 1 ≤ ((n - 1 : ℕ) : ℝ) := by exact_mod_cast this
        have hn1' : ((n - 1 : ℕ) : ℝ) = (n : ℝ) - 1 := by
          have : 1 ≤ n := by omega
          push_cast [this]
          ring
        linarith [hcast, hn1'.le]
      calc (j : ℝ) * step ≤ ((n : ℝ) - 1) * step :=
            mul_le_mul_of_nonneg_right hj' hstep.le
      _ = L := by
          rw [hstepdef, mul_comm, div_mul_cancel₀ _ (ne_of_gt hn1)]
  have heq : resampleCurve (p0 :: p1 :: rest) n =
      (p0 :: resampleLoop step (n - 2) 1 p0 (p1 :: rest) 0) ++
        [(p0 :: p1 :: rest).getLast (List.cons_ne_nil _ _)] := by
    simp only [resampleCurve]
  refine ⟨?_, ?_, ?_⟩
  · rw [heq, List.length_append, List.length_cons, hmid]
    simp only [List.length_singleton]
    omega
  · rw [heq]
    rfl
  · rw [heq]
    exact List.getLast?_concat _

/-! ### Claims C1 and C2: the resampler -/

/-- C1 (amended): for every input curve with at least 2 points whose
total path length is positive, and every `n ≥ 2`, `resampleCurve`
returns exactly `n` points whose first and last points equal the first
and last input points.  (The positivity hypothesis is forced by the
counterexample `resample_zero_path_length_cex`: on a zero-length path
every step target is `0`, the interior loop pushes nothing, and only
the two endpoints are returned.) -/
theorem resample_returns_n_points_of_pos_path (pts : List Point) (n : ℕ)
    (h2 : 2 ≤ pts.length) (hn : 2 ≤ n) (hL : 0 < pathLen pts) :
    (resampleCurve pts n).length = n ∧
      (resampleCurve pts n).head? = pts.head? ∧
      (resampleCurve pts n).getLast? = pts.getLast? := by
  obtain ⟨p0, p1, rest, rfl⟩ : ∃ p0 p1 rest, pts = p0 :: p1 :: rest := by
    cases pts with
    | nil => simp at h2
    | cons p0 t =>
      cases t with
      | nil => simp at h2
      | cons p1 rest => exact ⟨p0, p1, rest, rfl⟩
  obtain ⟨hlen, hhead, hlast⟩ := resampleCurve_spec_pos p0 p1 rest n hn hL
  refine ⟨hlen, by simpa using hhead, ?_⟩
  rw [hlast, List.getLast?_eq_getLast _ (List.cons_ne_nil _ _)]

/-- Witness for C1 at the concrete two-point segment from the origin to
`(1, 0)` and `n = 3`. -/
theorem resample_returns_n_points_witness :
    (2 ≤ ([⟨0, 0⟩, ⟨1, 0⟩] : List Point).length ∧ 2 ≤ 3 ∧
        0 < pathLen [⟨0, 0⟩, ⟨1, 0⟩]) ∧
      ((resampleCurve [⟨0, 0⟩, ⟨1, 0⟩] 3).length = 3 ∧
        (resampleCurve [⟨0, 0⟩, ⟨1, 0⟩] 3).head? =
          ([⟨0, 0⟩, ⟨1, 0⟩] : List Point).head? ∧
        (resampleCurve [⟨0, 0⟩, ⟨1, 0⟩] 3).getLast? =
          ([⟨0, 0⟩, ⟨1, 0⟩] : List Point).getLast?) := by
  have h1 : 2 ≤ ([⟨0, 0⟩, ⟨1, 0⟩] : List Point).length := by simp
  have h2 : 2 ≤ 3 := by norm_num
  have h3 : 0 < pathLen [(⟨0, 0⟩ : Point), ⟨1, 0⟩] := by
    have hlist : pathLen [(⟨0, 0⟩ : Point), ⟨1, 0⟩] = Real.sqrt 1 := by
      norm_num [pathLen, segLen]
    rw [hlist, Real.sqrt_one]
    norm_num
  exact ⟨⟨h1, h2, h3⟩,
    resample_returns_n_points_of_pos_path [⟨0, 0⟩, ⟨1, 0⟩] 3 h1 h2 h3⟩

/-- Counterexample to C1 as stated: on the degenerate two-point curve
with zero path length, `resampleCurve` with `n = 3` returns 2 points,
not 3. -/
theorem resample_zero_path_length_cex :
    (resampleCurve (List.replicate 2 (⟨0, 0⟩ : Point)) 3).length ≠ 3 := by
  rw [resampleCurve_const 2 3 _ (by norm_num) (by norm_num)]
  norm_num

/-- C2 (amended): on a curve whose points are all identical (zero path
length) with at least 2 points, and `n ≥ 2`, `resampleCurve` terminates
without dividing by zero and returns exactly 2 copies of that point
(the pushed first and last input points), not `n` copies: every step
target is `0`, so the inner while loop never runs its interpolation. -/
theorem resample_const_returns_two_copies (m n : ℕ) (p : Point)
    (hm : 2 ≤ m) (hn : 2 ≤ n) :
    resampleCurve (List.replicate m p) n = [p, p] :=
  resampleCurve_const m n p hm hn

/-- Witness for C2 at a concrete constant curve of 2 points, `n = 3`. -/
theorem resample_const_returns_two_copies_witness :
    (2 ≤ 2 ∧ 2 ≤ 3) ∧
      resampleCurve (List.replicate 2 (⟨7, 7⟩ : Point)) 3 = [⟨7, 7⟩, ⟨7, 7⟩] :=
  ⟨⟨le_refl 2, by norm_num⟩,
    resample_const_returns_two_copies 2 3 ⟨7, 7⟩ (le_refl 2) (by norm_num)⟩

/-- Counterexample to C2 as stated: a constant 3-point curve resampled
to `n = 4` does NOT return 4 copies of the point (it returns 2). -/
theorem resample_const_n_copies_cex :
    resampleCurve (List.replicate 3 (⟨1, 1⟩ : Point)) 4 ≠
      List.replicate 4 (⟨1, 1⟩ : Point) := by
  rw [resampleCurve_const 3 4 _ (by norm_num) (by norm_num)]
  intro h
  have hlen := congrArg List.length h
  simp at hlen

/-! ### Helper lemmas: normalization -/

lemma listMin_le_listMax (l : List ℝ) : listMin l ≤ listMax l := by
  cases l with
  | nil => exact le_refl 0
  | cons a t =>
    calc listMin (a :: t) ≤ a := listMin_le_mem (List.mem_cons_self _ _)
    _ ≤ listMax (a :: t) := mem_le_listMax (List.mem_cons_self _ _)

/-- The guarded rescaling of a value between its list minimum and
maximum lands in the unit interval. -/
lemma ratio_mem_unit {lo hi v : ℝ} (h1 : lo ≤ v) (h2 : v ≤ hi) :
    0 ≤ (v - lo) / guard0 (hi - lo) ∧ (v - lo) / guard0 (hi - lo) ≤ 1 := by
  by_cases h0 : hi - lo = 0
  · have hv : v = lo := by
      have : hi = lo := by linarith [sub_eq_zero.1 h0]
      linarith
    rw [guard0, if_pos h0, hv]
    norm_num
  · have hpos : 0 < hi - lo :=
      lt_of_le_of_ne (by linarith) (Ne.symm h0)
    rw [guard0, if_neg h0]
    constructor
    · exact div_nonneg (by linarith) hpos.le
    · rw [div_le_one hpos]
      linarith

lemma normalizeStroke_mem_bounds (pts : List Point) :
    ∀ q ∈ normalizeStroke pts, 0 ≤ q.x ∧ q.x ≤ 1 ∧ 0 ≤ q.y ∧ q.y ≤ 1 := by
  intro q hq
  unfold normalizeStroke at hq
  obtain ⟨p, hp, rfl⟩ := List.mem_map.1 hq
  have hxlo : listMin (pts.map Point.x) ≤ p.x :=
    listMin_le_mem (List.mem_map_of_mem _ hp)
  have hxhi : p.x ≤ listMax (pts.map Point.x) :=
    mem_le_listMax (List.mem_map_of_mem _ hp)
  have hylo : listMin (pts.map Point.y) ≤ p.y :=
    listMin_le_mem (List.mem_map_of_mem _ hp)
  have hyhi : p.y ≤ listMax (pts.map Point.y) :=
    mem_le_listMax (List.mem_map_of_mem _ hp)
  obtain ⟨hx0, hx1⟩ := ratio_mem_unit hxlo hxhi
  obtain ⟨hy0, hy1⟩ := ratio_mem_unit hylo hyhi
  exact ⟨hx0, hx1, by simpa using hy1, by simpa using hy0⟩

lemma normalizeStroke_chain (pts : List Point)
    (h : List.Chain' (fun a b : Point => a.x ≤ b.x) pts) :
    List.Chain' (fun a b : Point => a.x ≤ b.x) (normalizeStroke pts) := by
  unfold normalizeStroke
  rw [List.chain'_map]
  refine List.Chain'.imp ?_ h
  intro a b hab
  have hg : 0 < guard0 (listMax (pts.map Point.x) - listMin (pts.map Point.x)) := by
    apply guard0_pos
    have := listMin_le_listMax (pts.map Point.x)
    linarith
  exact div_le_div_of_nonneg_right (by linarith) hg.le |>.trans_eq rfl

lemma normalizeSeriesAux_chain (minVal maxVal : ℝ) (k : ℕ) (hk : 2 ≤ k) :
    ∀ (l : List ℝ) (i : ℕ),
      List.Chain' (fun a b : Point => a.x ≤ b.x)
        (normalizeSeriesAux minVal maxVal k i l) := by
  intro l
  induction l with
  | nil => intro i; simp [normalizeSeriesAux]
  | cons s t ih =>
    intro i
    cases t with
    | nil => simp [normalizeSeriesAux]
    | cons s2 t2 =>
      have hk1 : (0 : ℝ) < (k : ℝ) - 1 := by
        have : (2 : ℝ) ≤ (k : ℝ) := by exact_mod_cast hk
        linarith
      rw [normalizeSeriesAux, normalizeSeriesAux]
      rw [List.chain'_cons]
      constructor
      · show (i : ℝ) / ((k : ℝ) - 1) ≤ ((i + 1 : ℕ) : ℝ) / ((k : ℝ) - 1)
        apply div_le_div_of_nonneg_right ?_ hk1.le |>.trans_eq rfl
        push_cast
        linarith
      · rw [← normalizeSeriesAux]
        exact ih (i + 1)

lemma normalizeSeries_chain (sales : List ℝ) :
    List.Chain' (fun a b : Point => a.x ≤ b.x) (normalizeSeries sales) := by
  unfold normalizeSeries
  match sales with
  | [] => simp [normalizeSeriesAux]
  | [v] => simp [normalizeSeriesAux]
  | v1 :: v2 :: t =>
    exact normalizeSeriesAux_chain _ _ _ (by simp) _ 0

/-! ### Helper lemmas: degenerate (zero-range) inputs -/

lemma normalizeStroke_const_x {pts : List Point} {cx : ℝ}
    (hx : ∀ p ∈ pts, p.x = cx) : ∀ q ∈ normalizeStroke pts, q.x = 0 := by
  intro q hq
  unfold normalizeStroke at hq
  obtain ⟨p, hp, rfl⟩ := List.mem_map.1 hq
  have hne : pts ≠ [] := List.ne_nil_of_mem hp
  have hmin : listMin (pts.map Point.x) = cx := by
    apply listMin_const (by simpa using hne)
    intro v hv
    obtain ⟨p', hp', rfl⟩ := List.mem_map.1 hv
    exact hx p' hp'
  show (p.x - listMin (pts.map Point.x)) / _ = 0
  rw [hmin, hx p hp, sub_self, zero_div]

lemma normalizeStroke_const_y {pts : List Point} {cy : ℝ}
    (hy : ∀ p ∈ pts, p.y = cy) : ∀ q ∈ normalizeStroke pts, q.y = 1 := by
  intro q hq
  unfold normalizeStroke at hq
  obtain ⟨p, hp, rfl⟩ := List.mem_map.1 hq
  have hne : pts ≠ [] := List.ne_nil_of_mem hp
  have hmin : listMin (pts.map Point.y) = cy := by
    apply listMin_const (by simpa using hne)
    intro v hv
    obtain ⟨p', hp', rfl⟩ := List.mem_map.1 hv
    exact hy p' hp'
  show 1 - (p.y - listMin (pts.map Point.y)) / _ = 1
  rw [hmin, hy p hp, sub_self, zero_div, sub_zero]

lemma normalizeSeriesAux_const {minVal maxVal : ℝ} {k : ℕ} :
    ∀ (l : List ℝ) (i : ℕ), (∀ v ∈ l, v = minVal) →
      ∀ q ∈ normalizeSeriesAux minVal maxVal k i l, q.y = 0 := by
  intro l
  induction l with
  | nil => intro i _ q hq; simp [normalizeSeriesAux] at hq
  | cons s t ih =>
    intro i hall q hq
    rw [normalizeSeriesAux] at hq
    rcases List.mem_cons.1 hq with rfl | hq'
    · show (s - minVal) / _ = 0
      rw [hall s (List.mem_cons_self _ _), sub_self, zero_div]
    · exact ih (i + 1) (fun v hv => hall v (List.mem_cons_of_mem _ hv)) q hq'

lemma normalizeSeries_const {sales : List ℝ} {c : ℝ}
    (hs : ∀ v ∈ sales, v = c) : ∀ q ∈ normalizeSeries sales, q.y = 0 := by
  intro q hq
  unfold normalizeSeries at hq
  cases sales with
  | nil => simp [normalizeSeriesAux] at hq
  | cons s t =>
    have hmin : listMin (s :: t) = c := listMin_const (List.cons_ne_nil _ _) hs
    refine normalizeSeriesAux_const (s :: t) 0 ?_ q hq
    intro v hv
    rw [hmin]
    exact hs v hv

lemma walk_preserves_y (c target : ℝ) :
    ∀ (rest : List Point) (prev : Point) (cur : ℝ),
      prev.y = c → (∀ p ∈ rest, p.y = c) →
      (walk target prev rest cur).prev.y = c ∧
        (∀ p ∈ (walk target prev rest cur).rest, p.y = c) ∧
        (∀ q, (walk target prev rest cur).pushed = some q → q.y = c) := by
  intro rest
  induction rest with
  | nil =>
    intro prev cur hp hr
    by_cases h : cur < target
    · rw [walk.eq_def]
      simp only [if_pos h]
      exact ⟨hp, by simp, by simp⟩
    · rw [walk_of_not_lt _ _ h]
      exact ⟨hp, hr, by simp⟩
  | cons next rs' ih =>
    intro prev cur hp hr
    by_cases h : cur < target
    · rw [walk.eq_def]
      simp only [if_pos h]
      by_cases hc : target ≤ cur + segLen prev next
      · simp only [if_pos hc]
        refine ⟨hp, hr, ?_⟩
        intro q hq
        have hq' : q = ⟨prev.x + ((target - cur) / segLen prev next) * (next.x - prev.x),
            prev.y + ((target - cur) / segLen prev next) * (next.y - prev.y)⟩ := by
          simpa using hq.symm
        rw [hq']
        show prev.y + ((target - cur) / segLen prev next) * (next.y - prev.y) = c
        rw [hp, hr next (List.mem_cons_self _ _), sub_self, mul_zero, add_zero]
      · simp only [if_neg hc]
        exact ih next (cur + segLen prev next) (hr next (List.mem_cons_self _ _))
          (fun p hp' => hr p (List.mem_cons_of_mem _ hp'))
    · rw [walk_of_not_lt _ _ h]
      exact ⟨hp, hr, by simp⟩

lemma resampleLoop_preserves_y (c step : ℝ) :
    ∀ (k i : ℕ) (prev : Point) (rest : List Point) (cur : ℝ),
      prev.y = c → (∀ p ∈ rest, p.y = c) →
      ∀ q ∈ resampleLoop step k i prev rest cur, q.y = c := by
  intro k
  induction k with
  | zero => intro i prev rest cur _ _ q hq; cases hq
  | succ k' ih =>
    intro i prev rest cur hp hr q hq
    obtain ⟨h1, h2, h3⟩ := walk_preserves_y c ((i : ℝ) * step) rest prev cur hp hr
    simp only [resampleLoop] at hq
    rcases hw : (walk ((i : ℝ) * step) prev rest cur).pushed with _ | p
    · rw [hw] at hq
      exact ih (i + 1) _ _ _ h1 h2 q hq
    · rw [hw] at hq
      rcases List.mem_cons.1 hq with rfl | hq'
      · exact h3 q hw
      · exact ih (i + 1) _ _ _ h1 h2 q hq'

lemma resampleCurve_preserves_y (c : ℝ) (pts : List Point) (n : ℕ)
    (h : ∀ p ∈ pts, p.y = c) : ∀ q ∈ resampleCurve pts n, q.y = c := by
  match pts with
  | [] => intro q hq; cases hq
  | [p] =>
    intro q hq
    have : q = p := by simpa [resampleCurve] using hq
    rw [this]
    exact h p (List.mem_cons_self _ _)
  | p0 :: p1 :: rest =>
    intro q hq
    simp only [resampleCurve] at hq
    rw [List.mem_append] at hq
    rcases hq with hq | hq
    · rcases List.mem_cons.1 hq with rfl | hq'
      · exact h q (List.mem_cons_self _ _)
      · exact resampleLoop_preserves_y c _ _ 1 p0 (p1 :: rest) 0
          (h p0 (List.mem_cons_self _ _))
          (fun p hp => h p (List.mem_cons_of_mem _ hp)) q hq'
    · have hql : q = (p0 :: p1 :: rest).getLast (List.cons_ne_nil _ _) := by
        simpa using hq
      rw [hql]
      exact h _ (List.getLast_mem _)

/-! ### Claims C3 and C6: normalization -/

/-- C3 (amended): a zero-range axis never yields NaN — the guarded
denominator makes every output a well-defined constant — but the
constant differs by mode: the stroke x axis and the value-series y axis
map to the constant `0`, while the stroke y axis, which is inverted
(`1 - ratio`), maps to the constant `1`, not `0`.  The resampled output
of a constant series keeps `y = 0` everywhere. -/
theorem degenerate_range_normalization (pts : List Point) (sales : List ℝ)
    (cx cy cs : ℝ) :
    ((∀ p ∈ pts, p.x = cx) → ∀ q ∈ normalizeStroke pts, q.x = 0) ∧
      ((∀ p ∈ pts, p.y = cy) → ∀ q ∈ normalizeStroke pts, q.y = 1) ∧
      ((∀ v ∈ sales, v = cs) →
        (∀ q ∈ normalizeSeries sales, q.y = 0) ∧
          ∀ q ∈ resampleCurve (normalizeSeries sales) 20, q.y = 0) := by
  refine ⟨fun hx => normalizeStroke_const_x hx,
    fun hy => normalizeStroke_const_y hy, fun hs => ?_⟩
  have hnorm : ∀ q ∈ normalizeSeries sales, q.y = 0 := normalizeSeries_const hs
  exact ⟨hnorm, resampleCurve_preserves_y 0 (normalizeSeries sales) 20 hnorm⟩

/-- Witness for C3 at a constant stroke and a constant series. -/
theorem degenerate_range_normalization_witness :
    ((∀ p ∈ ([⟨2, 5⟩, ⟨2, 5⟩] : List Point), p.x = 2) ∧
        (∀ p ∈ ([⟨2, 5⟩, ⟨2, 5⟩] : List Point), p.y = 5) ∧
        (∀ v ∈ ([3, 3] : List ℝ), v = 3)) ∧
      ((∀ q ∈ normalizeStroke [⟨2, 5⟩, ⟨2, 5⟩], q.x = 0) ∧
        (∀ q ∈ normalizeStroke [⟨2, 5⟩, ⟨2, 5⟩], q.y = 1) ∧
        (∀ q ∈ normalizeSeries [3, 3], q.y = 0) ∧
        ∀ q ∈ resampleCurve (normalizeSeries [3, 3]) 20, q.y = 0) := by
  have hx : ∀ p ∈ ([⟨2, 5⟩, ⟨2, 5⟩] : List Point), p.x = 2 := by
    intro p hp
    rcases List.mem_cons.1 hp with rfl | hp'
    · rfl
    · rcases List.mem_cons.1 hp' with rfl | hp''
      · rfl
      · cases hp''
  have hy : ∀ p ∈ ([⟨2, 5⟩, ⟨2, 5⟩] : List Point), p.y = 5 := by
    intro p hp
    rcases List.mem_cons.1 hp with rfl | hp'
    · rfl
    · rcases List.mem_cons.1 hp' with rfl | hp''
      · rfl
      · cases hp''
  have hs : ∀ v ∈ ([3, 3] : List ℝ), v = 3 := by
    intro v hv
    rcases List.mem_cons.1 hv with rfl | hv'
    · rfl
    · rcases List.mem_cons.1 hv' with rfl | hv''
      · rfl
      · cases hv''
  obtain ⟨H1, H2, H3⟩ :=
    degenerate_range_normalization [⟨2, 5⟩, ⟨2, 5⟩] [3, 3] 2 5 3
  exact ⟨⟨hx, hy, hs⟩, H1 hx, H2 hy, (H3 hs).1, (H3 hs).2⟩

/-- Counterexample to C3 as stated: a screen-space stroke whose y axis
has zero range is normalized to the constant `1`, not `0` (the y axis
is inverted, so the ratio `0` becomes `1 - 0`). -/
theorem degenerate_stroke_y_maps_to_one_cex :
    (normalizeStroke [⟨0, 5⟩, ⟨1, 5⟩, ⟨2, 5⟩]).map Point.y = [1, 1, 1] ∧
      (1 : ℝ) ≠ 0 := by
  constructor
  · simp only [normalizeStroke, List.map_map, List.map_cons, List.map_nil,
      Function.comp]
    norm_num [listMin, listMax, List.foldl, guard0]
  · norm_num

/-- C6 (amended): the normalized output always lies in the unit square,
and the x coordinates are non-decreasing whenever the INPUT x
coordinates are non-decreasing (the stroke normalization preserves the
input order rather than sorting); the value-series normalization always
has non-decreasing x.  An arbitrary screen-space stroke whose x values
go backwards yields non-monotone normalized x. -/
theorem normalize_unit_square_and_monotone (pts : List Point) (sales : List ℝ) :
    (∀ q ∈ normalizeStroke pts, 0 ≤ q.x ∧ q.x ≤ 1 ∧ 0 ≤ q.y ∧ q.y ≤ 1) ∧
      (List.Chain' (fun a b : Point => a.x ≤ b.x) pts →
        List.Chain' (fun a b : Point => a.x ≤ b.x) (normalizeStroke pts)) ∧
      List.Chain' (fun a b : Point => a.x ≤ b.x) (normalizeSeries sales) :=
  ⟨normalizeStroke_mem_bounds pts, normalizeStroke_chain pts,
    normalizeSeries_chain sales⟩

/-- Witness for C6 at a concrete monotone stroke and a concrete series. -/
theorem normalize_unit_square_witness :
    List.Chain' (fun a b : Point => a.x ≤ b.x) [⟨0, 0⟩, ⟨1, 1⟩] ∧
      ((∀ q ∈ normalizeStroke [⟨0, 0⟩, ⟨1, 1⟩],
          0 ≤ q.x ∧ q.x ≤ 1 ∧ 0 ≤ q.y ∧ q.y ≤ 1) ∧
        List.Chain' (fun a b : Point => a.x ≤ b.x)
          (normalizeStroke [⟨0, 0⟩, ⟨1, 1⟩]) ∧
        List.Chain' (fun a b : Point => a.x ≤ b.x) (normalizeSeries [1, 2])) := by
  have hch : List.Chain' (fun a b : Point => a.x ≤ b.x)
      [(⟨0, 0⟩ : Point), ⟨1, 1⟩] := by
    simp
  obtain ⟨h1, h2, h3⟩ :=
    normalize_unit_square_and_monotone [⟨0, 0⟩, ⟨1, 1⟩] [1, 2]
  exact ⟨hch, h1, h2 hch, h3⟩

/-- Counterexample to C6 as stated: a stroke drawn right-to-left keeps
its input order after normalization, so the normalized x sequence is
`[1, 0]`, which is not monotonically non-decreasing. -/
theorem normalize_stroke_not_monotone_cex :
    (normalizeStroke [⟨1, 0⟩, ⟨0, 0⟩]).map Point.x = [1, 0] ∧
      ¬ ((1 : ℝ) ≤ 0) := by
  constructor
  · simp only [normalizeStroke, List.map_map, List.map_cons, List.map_nil,
      Function.comp, listMin, listMax, List.foldl]
    norm_num [guard0]
  · norm_num

/-! ### Helper lemmas: the DTW table -/

lemma dtwCell_zero_zero (a b : List Point) : dtwCell a b 0 0 = 0 := by
  rw [dtwCell]

lemma dtwCell_zero_succ (a b : List Point) (j : ℕ) :
    dtwCell a b 0 (j + 1) = ⊤ := by
  rw [dtwCell]

lemma dtwCell_succ_zero (a b : List Point) (i : ℕ) :
    dtwCell a b (i + 1) 0 = ⊤ := by
  rw [dtwCell]

lemma dtwCell_rec (a b : List Point) (i j : ℕ) :
    dtwCell a b (i + 1) (j + 1) =
      dtwCost a b i j +
        min (dtwCell a b i (j + 1))
          (min (dtwCell a b (i + 1) j) (dtwCell a b i j)) := by
  rw [dtwCell]

lemma dtwCost_nonneg (a b : List Point) (i j : ℕ) : 0 ≤ dtwCost a b i j := by
  unfold dtwCost
  exact EReal.coe_nonneg.2 (Real.sqrt_nonneg _)

lemma dtwCost_coe (a b : List Point) (i j : ℕ) :
    ∃ c : ℝ, 0 ≤ c ∧ dtwCost a b i j = (c : EReal) :=
  ⟨_, Real.sqrt_nonneg _, rfl⟩

lemma dtwCell_nonneg (a b : List Point) : ∀ i j, 0 ≤ dtwCell a b i j := by
  intro i
  induction i with
  | zero =>
    intro j
    cases j with
    | zero => rw [dtwCell_zero_zero]
    | succ j' => rw [dtwCell_zero_succ]; exact le_top
  | succ i' ih =>
    intro j
    induction j with
    | zero => rw [dtwCell_succ_zero]; exact le_top
    | succ j' ihj =>
      rw [dtwCell_rec]
      refine add_nonneg (dtwCost_nonneg _ _ _ _) ?_
      exact le_min (ih (j' + 1)) (le_min ihj (ih j'))

lemma dtwCell_diag (a : List Point) : ∀ i, dtwCell a a i i = 0 := by
  intro i
  induction i with
  | zero => exact dtwCell_zero_zero a a
  | succ i' ih =>
    rw [dtwCell_rec]
    have hcost : dtwCost a a i' i' = 0 := by
      unfold dtwCost
      norm_num
    rw [hcost, ih, zero_add,
      min_eq_right (dtwCell_nonneg a a (i' + 1) i'),
      min_eq_right (dtwCell_nonneg a a i' (i' + 1))]

lemma ereal_coe_min (r s : ℝ) :
    ((min r s : ℝ) : EReal) = min (r : EReal) (s : EReal) := by
  rcases le_total r s with h | h
  · rw [min_eq_left h, min_eq_left (EReal.coe_le_coe_iff.2 h)]
  · rw [min_eq_right h, min_eq_right (EReal.coe_le_coe_iff.2 h)]

/-- Every interior cell of the DTW table is a finite nonnegative real:
the `Infinity` borders are eliminated by the `min` as soon as the first
finite neighbour exists. -/
lemma dtwCell_finite (a b : List Point) :
    ∀ i j : ℕ, ∃ r : ℝ, 0 ≤ r ∧ dtwCell a b (i + 1) (j + 1) = (r : EReal) := by
  intro i
  induction i with
  | zero =>
    intro j
    induction j with
    | zero =>
      obtain ⟨c, hc, hcost⟩ := dtwCost_coe a b 0 0
      refine ⟨c, hc, ?_⟩
      rw [dtwCell_rec, hcost, dtwCell_zero_succ, dtwCell_succ_zero,
        dtwCell_zero_zero, min_eq_right (le_top : (0 : EReal) ≤ ⊤),
        min_eq_right (le_top : (0 : EReal) ≤ ⊤), add_zero]
    | succ j' ihj =>
      obtain ⟨r, hr, hcell⟩ := ihj
      obtain ⟨c, hc, hcost⟩ := dtwCost_coe a b 0 (j' + 1)
      refine ⟨c + r, by linarith, ?_⟩
      rw [dtwCell_rec, hcost, dtwCell_zero_succ, dtwCell_zero_succ, hcell,
        min_eq_left (le_top : ((r : EReal)) ≤ ⊤),
        min_eq_right (le_top : ((r : EReal)) ≤ ⊤), ← EReal.coe_add]
  | succ i' ih =>
    intro j
    induction j with
    | zero =>
      obtain ⟨r, hr, hcell⟩ := ih 0
      obtain ⟨c, hc, hcost⟩ := dtwCost_coe a b (i' + 1) 0
      refine ⟨c + r, by linarith, ?_⟩
      rw [dtwCell_rec, hcost, dtwCell_succ_zero, dtwCell_succ_zero, hcell,
        min_eq_left (le_top : ((⊤ : EReal)) ≤ ⊤),
        min_eq_left (le_top : ((r : EReal)) ≤ ⊤), ← EReal.coe_add]
    | succ j' ihj =>
      obtain ⟨r1, hr1, hc1⟩ := ih (j' + 1)
      obtain ⟨r2, hr2, hc2⟩ := ihj
      obtain ⟨r3, hr3, hc3⟩ := ih j'
      obtain ⟨c, hc, hcost⟩ := dtwCost_coe a b (i' + 1) (j' + 1)
      refine ⟨c + min r1 (min r2 r3), by positivity, ?_⟩
      rw [dtwCell_rec, hcost, hc1, hc2, hc3, ← ereal_coe_min, ← ereal_coe_min,
        ← EReal.coe_add]

/-! ### Claims C7 and C10: DTW scoring -/

/-- C7: the DTW distance of any resampled curve to itself is `0`, and
the DTW distance of non-empty equal-length curves is nonnegative. -/
theorem dtw_self_zero_and_nonneg :
    (∀ a : List Point, calculateDTWSimilarity a a = 0) ∧
      ∀ a b : List Point, a ≠ [] → b ≠ [] → a.length = b.length →
        0 ≤ calculateDTWSimilarity a b := by
  constructor
  · intro a
    unfold calculateDTWSimilarity
    exact dtwCell_diag a a.length
  · intro a b _ _ _
    exact dtwCell_nonneg a b _ _

/-- Witness for C7 at concrete one-point curves. -/
theorem dtw_self_zero_witness :
    (([⟨0, 0⟩] : List Point) ≠ [] ∧ ([⟨0, 1⟩] : List Point) ≠ [] ∧
        ([⟨0, 0⟩] : List Point).length = ([⟨0, 1⟩] : List Point).length) ∧
      (calculateDTWSimilarity [⟨0, 0⟩] [⟨0, 0⟩] = 0 ∧
        0 ≤ calculateDTWSimilarity [⟨0, 0⟩] [⟨0, 1⟩]) :=
  ⟨⟨by simp, by simp, rfl⟩, dtw_self_zero_and_nonneg.1 [⟨0, 0⟩],
    dtw_self_zero_and_nonneg.2 [⟨0, 0⟩] [⟨0, 1⟩] (by simp) (by simp) rfl⟩

/-- C10: for non-empty curves the returned DTW cell is a finite
nonnegative real — the `Infinity` initialization of the border rows and
columns never propagates to `dtw[n][m]`, so `Infinity` cannot reach the
ranking or the match-quality display. -/
theorem dtw_result_finite (a b : List Point) (ha : a ≠ []) (hb : b ≠ []) :
    ∃ r : ℝ, 0 ≤ r ∧ calculateDTWSimilarity a b = (r : EReal) := by
  obtain ⟨i, hi⟩ : ∃ i, a.length = i + 1 := by
    cases a with
    | nil => exact absurd rfl ha
    | cons p t => exact ⟨t.length, rfl⟩
  obtain ⟨j, hj⟩ : ∃ j, b.length = j + 1 := by
    cases b with
    | nil => exact absurd rfl hb
    | cons p t => exact ⟨t.length, rfl⟩
  unfold calculateDTWSimilarity
  rw [hi, hj]
  exact dtwCell_finite a b i j

/-- Witness for C10 at concrete one-point curves. -/
theorem dtw_result_finite_witness :
    (([⟨0, 0⟩] : List Point) ≠ [] ∧ ([⟨0, 2⟩] : List Point) ≠ []) ∧
      ∃ r : ℝ, 0 ≤ r ∧ calculateDTWSimilarity [⟨0, 0⟩] [⟨0, 2⟩] = (r : EReal) :=
  ⟨⟨by simp, by simp⟩,
    dtw_result_finite [⟨0, 0⟩] [⟨0, 2⟩] (by simp) (by simp)⟩

/-! ### Claim C8: the match-quality display -/

/-- C8: for a nonnegative DTW distance `d`, the displayed quality
`Math.max(0, 100 - d * 20)` agrees with `clamp(0, 100, 100 - d * 20)`
and lies in `[0, 100]`: the missing upper clamp is implied by `d ≥ 0`. -/
theorem match_quality_clamped (d : ℝ) (hd : 0 ≤ d) :
    matchQuality d = specClamp 0 100 (100 - d * 20) ∧
      0 ≤ matchQuality d ∧ matchQuality d ≤ 100 := by
  unfold matchQuality specClamp
  have h1 : (100 : ℝ) - d * 20 ≤ 100 := by nlinarith
  have h2 : max 0 (100 - d * 20) ≤ 100 := max_le (by norm_num) h1
  exact ⟨(min_eq_right h2).symm, le_max_left _ _, h2⟩

/-- Witness for C8 at the distance `d = 1` (quality 80). -/
theorem match_quality_clamped_witness :
    (0 ≤ (1 : ℝ)) ∧
      (matchQuality 1 = specClamp 0 100 (100 - 1 * 20) ∧
        0 ≤ matchQuality 1 ∧ matchQuality 1 ≤ 100) :=
  ⟨by norm_num, match_quality_clamped 1 (by norm_num)⟩

/-! ### Claim C9: the minimum-support corpus filter -/

/-- C9 (amended): a series is kept in the searchable corpus iff the
count of its periods with a STRICTLY POSITIVE value (the code tests
`d.sales > 0`, not `!= 0`) is at least `min(5, periodCount / 2)`, the
half not rounded. -/
theorem corpus_support_filter_iff (corpus : List Series) (periodCount : ℕ)
    (s : Series) :
    s ∈ timeSeriesData corpus periodCount ↔
      s ∈ corpus ∧
        min 5 ((periodCount : ℝ) / 2) ≤
          ((s.sales.filter fun v => decide (0 < v)).length : ℝ) := by
  unfold timeSeriesData
  rw [List.mem_filter]
  constructor
  · rintro ⟨h1, h2⟩
    exact ⟨h1, of_decide_eq_true h2⟩
  · rintro ⟨h1, h2⟩
    exact ⟨h1, decide_eq_true h2⟩

/-- Counterexample to C9 as stated: a series whose only non-zero value
is negative meets the NON-ZERO criterion of the spec but is excluded by
the code, which counts only strictly positive periods. -/
theorem support_filter_nonzero_cex :
    specMinimumSupport ⟨"P", "C", [-1, 0], -1⟩ 2 ∧
      (⟨"P", "C", [-1, 0], -1⟩ : Series) ∉
        timeSeriesData [⟨"P", "C", [-1, 0], -1⟩] 2 := by
  constructor
  · unfold specMinimumSupport
    have hfil : List.filter (fun v => decide (v ≠ 0)) [(-1 : ℝ), 0] = [-1] := by
      norm_num [List.filter_cons]
    simp only [hfil]
    norm_num
  · unfold timeSeriesData
    intro h
    rw [List.mem_filter] at h
    have h2 := of_decide_eq_true h.2
    have hfil : List.filter (fun v => decide ((0 : ℝ) < v)) [(-1 : ℝ), 0] = [] := by
      norm_num [List.filter_cons]
    simp only [hfil] at h2
    norm_num at h2

/-! ### Helper lemmas: the stable sort of the ranking -/

/-- The results carrying one fixed similarity value, in order (used to
state stability of the ranking under ties). -/
noncomputable def keepSim (c : EReal) (l : List MatchResult) : List MatchResult :=
  l.filter fun m => decide (m.similarity = c)

lemma keepSim_nil (c : EReal) : keepSim c [] = [] := rfl

lemma keepSim_cons (c : EReal) (a : MatchResult) (l : List MatchResult) :
    keepSim c (a :: l) =
      if a.similarity = c then a :: keepSim c l else keepSim c l := by
  unfold keepSim
  rw [List.filter_cons]
  by_cases h : a.similarity = c
  · simp [h]
  · simp [h]

lemma mem_insertSorted (key : MatchResult → EReal) (a x : MatchResult) :
    ∀ l, x ∈ insertSorted key a l ↔ x = a ∨ x ∈ l := by
  intro l
  induction l with
  | nil => simp [insertSorted]
  | cons b t ih =>
    rw [insertSorted]
    by_cases h : key a ≤ key b
    · rw [if_pos h]
      simp [or_comm, or_assoc, or_left_comm]
    · rw [if_neg h]
      simp only [List.mem_cons, ih]
      tauto

lemma insertSorted_sorted (key : MatchResult → EReal) (a : MatchResult) :
    ∀ l, List.Sorted (fun x y => key x ≤ key y) l →
      List.Sorted (fun x y => key x ≤ key y) (insertSorted key a l) := by
  intro l
  induction l with
  | nil => intro _; simp [insertSorted]
  | cons b t ih =>
    intro hs
    rw [List.sorted_cons] at hs
    obtain ⟨hb, ht⟩ := hs
    rw [insertSorted]
    by_cases h : key a ≤ key b
    · rw [if_pos h, List.sorted_cons]
      refine ⟨?_, List.sorted_cons.2 ⟨hb, ht⟩⟩
      intro y hy
      rcases List.mem_cons.1 hy with rfl | hy'
      · exact h
      · exact le_trans h (hb y hy')
    · rw [if_neg h, List.sorted_cons]
      refine ⟨?_, ih ht⟩
      intro y hy
      rcases (mem_insertSorted key a y t).1 hy with rfl | hy'
      · exact le_of_not_le h
      · exact hb y hy'

lemma stableSortBy_sorted :
    ∀ l, List.Sorted (fun x y : MatchResult => x.similarity ≤ y.similarity)
      (stableSortBy (fun m => m.similarity) l) := by
  intro l
  induction l with
  | nil => simp [stableSortBy]
  | cons a t ih => exact insertSorted_sorted _ a _ ih

/-- Stability of the ordered insertion: restricted to one similarity
value, inserting `a` puts it in front exactly when it carries that
value, because every element skipped by the insertion has a strictly
smaller key. -/
lemma keepSim_insertSorted (c : EReal) (a : MatchResult) :
    ∀ l, keepSim c (insertSorted (fun m => m.similarity) a l) =
      if a.similarity = c then a :: keepSim c l else keepSim c l := by
  intro l
  induction l with
  | nil =>
    rw [show insertSorted (fun m => m.similarity) a [] = [a] from rfl,
      keepSim_cons]
  | cons b t ih =>
    rw [insertSorted]
    by_cases hab : a.similarity ≤ b.similarity
    · rw [if_pos hab, keepSim_cons]
    · rw [if_neg hab, keepSim_cons]
      by_cases hb : b.similarity = c
      · have ha : ¬ a.similarity = c := fun ha => hab (le_of_eq (by rw [ha, hb]))
        rw [if_pos hb, ih, if_neg ha, if_neg ha, keepSim_cons, if_pos hb]
      · rw [if_neg hb, ih, keepSim_cons, if_neg hb]

lemma keepSim_stableSortBy (c : EReal) :
    ∀ l, keepSim c (stableSortBy (fun m => m.similarity) l) = keepSim c l := by
  intro l
  induction l with
  | nil => rfl
  | cons a t ih =>
    rw [stableSortBy, keepSim_insertSorted, ih, keepSim_cons]

/-! ### Claims C4 and C5: the ranked search -/

/-- C4: the search result has at most 10 entries, is sorted by
non-decreasing DTW distance, and is tie-stable: restricted to any fixed
distance value, the returned entries form a sublist (hence appear in
the order) of the scored list, which itself is in original corpus
order. -/
theorem search_topK_sorted_stable (stroke : List Point) (corpus : List Series)
    (cat : String) :
    (searchForMatchingPatterns stroke corpus cat).length ≤ 10 ∧
      List.Sorted (fun x y : MatchResult => x.similarity ≤ y.similarity)
        (searchForMatchingPatterns stroke corpus cat) ∧
      ∀ c : EReal,
        (keepSim c (searchForMatchingPatterns stroke corpus cat)).Sublist
          (keepSim c (scoredResults stroke corpus cat)) := by
  unfold searchForMatchingPatterns
  by_cases h : stroke.length = 0 ∨ corpus.length = 0
  · rw [if_pos h]
    exact ⟨by simp, by simp, fun c => List.nil_sublist _⟩
  · rw [if_neg h]
    refine ⟨List.length_take_le _ _, ?_, ?_⟩
    · exact List.Pairwise.sublist (List.take_sublist _ _) (stableSortBy_sorted _)
    · intro c
      have h1 : (keepSim c ((stableSortBy (fun m => m.similarity)
            (scoredResults stroke corpus cat)).take 10)).Sublist
          (keepSim c (stableSortBy (fun m => m.similarity)
            (scoredResults stroke corpus cat))) :=
        List.Sublist.filter _ (List.take_sublist _ _)
      rw [keepSim_stableSortBy] at h1
      exact h1

/-- C5: a stroke with fewer than 5 points produces no matches — the
gesture-end handler only triggers the search at 5 or more points — and
the search itself returns the empty list on an empty stroke. -/
theorem short_stroke_returns_empty (stroke : List Point) (corpus : List Series)
    (cat : String) (h : stroke.length < 5) :
    endDrawing stroke corpus cat = [] ∧
      searchForMatchingPatterns [] corpus cat = [] := by
  constructor
  · unfold endDrawing
    rw [if_neg (not_le.2 h)]
  · unfold searchForMatchingPatterns
    simp

/-- Witness for C5 at a one-point stroke. -/
theorem short_stroke_returns_empty_witness :
    ([⟨0, 0⟩] : List Point).length < 5 ∧
      (endDrawing [⟨0, 0⟩] [] "All" = [] ∧
        searchForMatchingPatterns [] [] "All" = []) :=
  ⟨by norm_num, short_stroke_returns_empty [⟨0, 0⟩] [] "All" (by norm_num)⟩
